import Mathlib

/-!
Verification of the chessgames move-tree and engine-client subsystem.

The move tree (`GameTree` in `src/App.tsx`, exported as `Shared/GameTree`)
is embedded as a pure state-passing structure.  The move-validation service
(the chess.js library) is an external collaborator; it is modelled as an
abstract deterministic function from a position and a move descriptor to an
optional move result, exactly the interface the tree consumes
(`new Chess(fen)`, `chess.move(input)`, `chess.fen()`, `chess.moveNumber()`).
-/

namespace ChessGames

/-- Side to move, the `'w' | 'b'` values used by chess.js. -/
inductive Color where
  | w
  | b
deriving DecidableEq, Repr

/-- A chess position as the tree observes it through chess.js: the FEN
piece-placement field and the castling/en-passant/halfmove fields are
uninterpreted text, while the side to move and the fullmove counter are
structured because `GameTree.addMove` consults them (`chess.turn()`,
`chess.moveNumber()`).  `fullmove` is the last space-separated FEN field. -/
structure Position where
  board : String
  turn : Color
  rest : String
  fullmove : Nat
deriving DecidableEq, Repr

/-- The `moveInput` union accepted by `GameTree.addMove`:
a SAN string or a `{ from, to, promotion }` descriptor. -/
inductive MoveInput where
  | sanStr (s : String)
  | coords (fromSq toSq : String) (promotion : Option String)
deriving DecidableEq, Repr

/-- The chess.js `Move` object returned by a successful `chess.move` call,
together with the position of the mutated instance after the move
(`chess.fen()` / `chess.moveNumber()`).  `fromSq`/`toSq` embed the
`from`/`to` fields (`from` is reserved in Lean). -/
structure MoveRes where
  san : String
  fromSq : String
  toSq : String
  promotion : Option String
  color : Color
  after : Position
deriving DecidableEq, Repr

/-- The move-validation service: `Chess(fen).move(input)` as a black box.
chess.js either throws or returns `null` on an illegal move; `addMove`
maps both outcomes to the same null result, so one `Option` captures it. -/
abbrev Validator := Position → MoveInput → Option MoveRes

/-- `GameTreeNode` from the source; `children` holds the ordered child
identifiers (the source stores the node objects themselves, which live in
the tree's lookup map, so identifiers carry the same information). -/
structure GameTreeNode where
  id : Nat
  fen : Position
  move : Option MoveRes
  san : String
  parentId : Option Nat
  children : List Nat
  isMainLine : Bool
  startingMoveNumber : Nat
deriving DecidableEq, Repr

/-- The `GameTree` state: the `nodes` lookup map (insertion-ordered, keyed
by the `id` field), the root and current identifiers, and the module-level
`nodeIdCounter` whose value the ids `node-<k>` are drawn from. -/
structure GameTree where
  nodes : List GameTreeNode
  rootId : Nat
  currentNodeId : Nat
  counter : Nat
deriving DecidableEq, Repr

namespace GameTree

/-- `this.nodes.get(id)`. -/
def findNode (t : GameTree) (i : Nat) : Option GameTreeNode :=
  t.nodes.find? (fun n => n.id == i)

end GameTree

/-- The dedup test in `addMove`:
`child.move?.from === moveResult.from && child.move?.to === moveResult.to
&& child.move?.promotion === moveResult.promotion`
(a root-like child with no move matches nothing because `undefined` never
equals the defined fields of a successful move result). -/
def childMatches (res : MoveRes) (child : GameTreeNode) : Bool :=
  match child.move with
  | some m => m.fromSq == res.fromSq && m.toSq == res.toSq && m.promotion == res.promotion
  | none => false

namespace GameTree

/-- `parentNode.children.find(child => ...)` over the child node objects;
here the child identifiers are resolved through the lookup map (the source
keeps the objects aliased in both places). -/
def findExistingChild (t : GameTree) (parent : GameTreeNode) (res : MoveRes) :
    Option GameTreeNode :=
  parent.children.findSome? (fun cid =>
    match t.findNode cid with
    | some child => if childMatches res child then some child else none
    | none => none)

/-- `parentNode.children.push(newNode)` seen through the lookup map: the
entry whose id is the parent's gains the new child identifier. -/
def appendChild (pid cid : Nat) (n : GameTreeNode) : GameTreeNode :=
  if n.id == pid then { n with children := n.children ++ [cid] } else n

/-- The `newNode` record literal built by `addMove` on success
(`startingMoveNumber` is `chess.moveNumber()` of the instance that already
performed the move, i.e. the fullmove counter of the resulting position;
the unused local `moveNumberForThisNode` of the source is dead code). -/
def newChildNode (t : GameTree) (parentNode : GameTreeNode) (moveResult : MoveRes)
    (isMainLineMove : Bool) : GameTreeNode :=
  { id := t.counter + 1
    fen := moveResult.after
    move := some moveResult
    san := moveResult.san
    parentId := some parentNode.id
    children := []
    isMainLine := isMainLineMove
    startingMoveNumber := moveResult.after.fullmove }

/-- `parentNode.children.push(newNode); this.nodes.set(newNode.id, newNode)`:
the parent entry is updated in place and the new node is registered. -/
def insertChild (t : GameTree) (parentNode newNode : GameTreeNode) : GameTree :=
  { nodes := t.nodes.map (appendChild parentNode.id newNode.id) ++ [newNode]
    rootId := t.rootId
    currentNodeId := t.currentNodeId
    counter := newNode.id }

/-- `addMove(moveInput, parentNodeId?, isMainLineMove = false)`.
Returns the updated tree and the produced node (`null` becomes `none`).
The unused local `moveNumberForThisNode` of the source (computed from the
new FEN and immediately shadowed by `moveNumberForNewNode`) is dead code
and has no observable effect; `moveNumberForNewNode` is `chess.moveNumber()`
on the instance that has already performed the move, i.e. the fullmove
counter of the resulting position. -/
def addMove (V : Validator) (t : GameTree) (moveInput : MoveInput)
    (parentNodeId : Option Nat) (isMainLineMove : Bool) :
    GameTree × Option GameTreeNode :=
  match t.findNode (parentNodeId.getD t.currentNodeId) with
  | none => (t, none)
  | some parentNode =>
    match V parentNode.fen moveInput with
    | none => (t, none)
    | some moveResult =>
      match t.findExistingChild parentNode moveResult with
      | some existingChild => (t, some existingChild)
      | none =>
        let newNode := newChildNode t parentNode moveResult isMainLineMove
        (insertChild t parentNode newNode, some newNode)

/-- `navigateToNode(nodeId)`: returns the updated tree and the boolean. -/
def navigateToNode (t : GameTree) (nodeId : Nat) : GameTree × Bool :=
  if (t.findNode nodeId).isSome then
    ({ t with currentNodeId := nodeId }, true)
  else
    (t, false)

/-- The root node built by the constructor before the main line is added:
`generateNodeId()` increments the counter and yields `node-<c0+1>`;
`startingMoveNumber` is `chess.moveNumber()` of the initial position. -/
def mkRoot (initialPos : Position) (c0 : Nat) : GameTree :=
  { nodes := [{ id := c0 + 1
                fen := initialPos
                move := none
                san := ""
                parentId := none
                children := []
                isMainLine := true
                startingMoveNumber := initialPos.fullmove }]
    rootId := c0 + 1
    currentNodeId := c0 + 1
    counter := c0 + 1 }

/-- The `mainLineMovesSAN.forEach` loop of the constructor: each move is
added under the running parent; on failure the parent is kept and the
remaining moves are still attempted (the source only logs a warning).
Returns the tree and the final running parent identifier. -/
def buildMainLine (V : Validator) : GameTree → Nat → List MoveInput → GameTree × Nat
  | t, parentId, [] => (t, parentId)
  | t, parentId, m :: ms =>
    match addMove V t m (some parentId) true with
    | (t', some n) => buildMainLine V t' n.id ms
    | (t', none) => buildMainLine V t' parentId ms

/-- The `GameTree` constructor: build the root from the initial position
(chess.js supplies the standard start when none is given — here the caller
always passes the structured position), then add the main line and set the
current node to its last successfully added node.  `c0` is the value the
module-level id counter happens to hold when the constructor runs. -/
def new (V : Validator) (initialPos : Position) (mainLine : List MoveInput)
    (c0 : Nat) : GameTree :=
  let t0 := mkRoot initialPos c0
  let r := buildMainLine V t0 t0.rootId mainLine
  { r.1 with currentNodeId := r.2 }

/-- The `while (current)` loop of `getMovesToNode`, written with explicit
fuel.  The loop follows parent links, prepending each visited node; in any
state the tree operations can reach, every node's parent has a strictly
smaller identifier, so `t.counter` steps of fuel are always enough and the
fuel case is never hit (proved below). -/
def getMovesToNodeAux (t : GameTree) : Nat → GameTreeNode → List GameTreeNode
  | fuel, c =>
    match c.parentId with
    | none => [c]
    | some p =>
      match fuel with
      | 0 => [c]
      | fuel' + 1 =>
        match t.findNode p with
        | none => [c]
        | some par => getMovesToNodeAux t fuel' par ++ [c]

/-- `getMovesToNode(nodeId?)`: path from the root to the node. -/
def getMovesToNode (t : GameTree) (nodeId : Option Nat) : List GameTreeNode :=
  match t.findNode (nodeId.getD t.currentNodeId) with
  | none => []
  | some c => getMovesToNodeAux t t.counter c

end GameTree

/-- JavaScript `String.prototype.trim`: strip leading and trailing
whitespace.  (Lean's own `String.trim` is the same operation but is opaque
to kernel evaluation, so the char-list form is used.) -/
def jsTrim (s : String) : String :=
  ⟨((s.data.dropWhile Char.isWhitespace).reverse.dropWhile Char.isWhitespace).reverse⟩

/-- The `nodes.forEach` body of `formatPathToPgn`, accumulating the string;
the boolean is the `firstMove` flag (only cleared by nodes carrying a
move). -/
def formatPathAux : List GameTreeNode → Bool → String
  | [], _ => ""
  | n :: ns, firstMove =>
    match n.move with
    | none => formatPathAux ns firstMove
    | some m =>
      (if m.color = Color.w then toString n.startingMoveNumber ++ ". "
       else if firstMove then toString n.startingMoveNumber ++ "... "
       else "")
        ++ n.san ++ " " ++ formatPathAux ns false

namespace GameTree

/-- `formatPathToPgn(nodes)`. -/
def formatPathToPgn (_t : GameTree) (nodes : List GameTreeNode) : String :=
  jsTrim (formatPathAux nodes true)

end GameTree

/-- Whether the child identifier `cid` resolves to a node whose move has the
same origin/destination/promotion as `res`. -/
def childLookupMatches (t : GameTree) (res : MoveRes) (cid : Nat) : Bool :=
  match t.findNode cid with
  | some child => childMatches res child
  | none => false

namespace GameTree

theorem findNode_some_id {t : GameTree} {i : Nat} {n : GameTreeNode}
    (h : t.findNode i = some n) : n.id = i := by
  have := List.find?_some h
  simpa using this

theorem findNode_mem {t : GameTree} {i : Nat} {n : GameTreeNode}
    (h : t.findNode i = some n) : n ∈ t.nodes :=
  List.mem_of_find?_eq_some h

theorem findNode_eq_none_iff {t : GameTree} {i : Nat} :
    t.findNode i = none ↔ ∀ n ∈ t.nodes, n.id ≠ i := by
  unfold findNode
  rw [List.find?_eq_none]
  constructor
  · intro h n hn
    have := h n hn
    simpa using this
  · intro h n hn
    simpa using h n hn

theorem find?_id_of_mem_nodup {l : List GameTreeNode} {n : GameTreeNode}
    (hd : (l.map GameTreeNode.id).Nodup) (hn : n ∈ l) :
    l.find? (fun m => m.id == n.id) = some n := by
  induction l with
  | nil => cases hn
  | cons m ms ih =>
    rw [List.map_cons, List.nodup_cons] at hd
    rcases List.mem_cons.mp hn with h | h
    · subst h
      simp [List.find?]
    · have hne : m.id ≠ n.id := by
        intro he
        exact hd.1 (he ▸ List.mem_map_of_mem GameTreeNode.id h)
      have : (m.id == n.id) = false := by simpa using hne
      simp only [List.find?, this]
      exact ih hd.2 h

theorem findNode_of_mem {t : GameTree} {n : GameTreeNode}
    (hd : (t.nodes.map GameTreeNode.id).Nodup) (hn : n ∈ t.nodes) :
    t.findNode n.id = some n :=
  find?_id_of_mem_nodup hd hn

theorem appendChild_id (pid cid : Nat) (n : GameTreeNode) :
    (appendChild pid cid n).id = n.id := by
  unfold appendChild
  split <;> rfl

theorem appendChild_fen (pid cid : Nat) (n : GameTreeNode) :
    (appendChild pid cid n).fen = n.fen := by
  unfold appendChild
  split <;> rfl

theorem appendChild_move (pid cid : Nat) (n : GameTreeNode) :
    (appendChild pid cid n).move = n.move := by
  unfold appendChild
  split <;> rfl

theorem appendChild_san (pid cid : Nat) (n : GameTreeNode) :
    (appendChild pid cid n).san = n.san := by
  unfold appendChild
  split <;> rfl

theorem appendChild_parentId (pid cid : Nat) (n : GameTreeNode) :
    (appendChild pid cid n).parentId = n.parentId := by
  unfold appendChild
  split <;> rfl

theorem appendChild_isMainLine (pid cid : Nat) (n : GameTreeNode) :
    (appendChild pid cid n).isMainLine = n.isMainLine := by
  unfold appendChild
  split <;> rfl

theorem appendChild_startingMoveNumber (pid cid : Nat) (n : GameTreeNode) :
    (appendChild pid cid n).startingMoveNumber = n.startingMoveNumber := by
  unfold appendChild
  split <;> rfl

theorem appendChild_children (pid cid : Nat) (n : GameTreeNode) :
    ∃ ext, (appendChild pid cid n).children = n.children ++ ext := by
  unfold appendChild
  split
  · exact ⟨[cid], rfl⟩
  · exact ⟨[], by simp⟩

theorem appendChild_children_of_ne {pid cid : Nat} {n : GameTreeNode}
    (h : n.id ≠ pid) : (appendChild pid cid n).children = n.children := by
  unfold appendChild
  have : (n.id == pid) = false := by simpa using h
  simp [this]

theorem appendChild_children_of_eq {pid cid : Nat} {n : GameTreeNode}
    (h : n.id = pid) : (appendChild pid cid n).children = n.children ++ [cid] := by
  unfold appendChild
  have : (n.id == pid) = true := by simpa using h
  simp [this]

/-- Lookup in the tree produced by `insertChild`. -/
theorem findNode_insertChild (t : GameTree) (parent newNode : GameTreeNode) (i : Nat) :
    (insertChild t parent newNode).findNode i =
      match t.findNode i with
      | some m => some (appendChild parent.id newNode.id m)
      | none => if newNode.id = i then some newNode else none := by
  unfold insertChild findNode
  rw [List.find?_append]
  have hmap : (t.nodes.map (appendChild parent.id newNode.id)).find?
      (fun n => n.id == i) =
      (t.nodes.find? (fun n => n.id == i)).map (appendChild parent.id newNode.id) := by
    rw [List.find?_map]
    have harg : ((fun n => n.id == i) ∘ appendChild parent.id newNode.id) =
        (fun n : GameTreeNode => n.id == i) := by
      funext n
      simp [Function.comp, appendChild_id]
    rw [harg]
  rw [hmap]
  cases hf : t.nodes.find? (fun n => n.id == i) with
  | some m => simp
  | none =>
    simp only [Option.map_none, Option.none_or, List.find?]
    by_cases hi : newNode.id = i
    · have : (newNode.id == i) = true := by simpa using hi
      simp [this, hi]
    · have : (newNode.id == i) = false := by simpa using hi
      simp [this, hi]

theorem findNode_insertChild_old {t : GameTree} {parent newNode : GameTreeNode}
    {i : Nat} {m : GameTreeNode} (h : t.findNode i = some m) :
    (insertChild t parent newNode).findNode i =
      some (appendChild parent.id newNode.id m) := by
  rw [findNode_insertChild t parent newNode i, h]

theorem findNode_insertChild_new {t : GameTree} {parent newNode : GameTreeNode}
    (hfresh : ∀ n ∈ t.nodes, n.id ≠ newNode.id) :
    (insertChild t parent newNode).findNode newNode.id = some newNode := by
  rw [findNode_insertChild t parent newNode newNode.id]
  have : t.findNode newNode.id = none := by
    rw [findNode_eq_none_iff]
    exact hfresh
  rw [this]
  simp

/-! Case equations for `addMove`. -/

theorem addMove_parent_missing {V : Validator} {t : GameTree} {input : MoveInput}
    {pid : Option Nat} {b : Bool}
    (h : t.findNode (pid.getD t.currentNodeId) = none) :
    addMove V t input pid b = (t, none) := by
  simp only [addMove, h]

theorem addMove_illegal {V : Validator} {t : GameTree} {input : MoveInput}
    {pid : Option Nat} {b : Bool} {parent : GameTreeNode}
    (hp : t.findNode (pid.getD t.currentNodeId) = some parent)
    (hv : V parent.fen input = none) :
    addMove V t input pid b = (t, none) := by
  simp only [addMove, hp, hv]

theorem addMove_existing {V : Validator} {t : GameTree} {input : MoveInput}
    {pid : Option Nat} {b : Bool} {parent : GameTreeNode} {res : MoveRes}
    {c : GameTreeNode}
    (hp : t.findNode (pid.getD t.currentNodeId) = some parent)
    (hv : V parent.fen input = some res)
    (hc : t.findExistingChild parent res = some c) :
    addMove V t input pid b = (t, some c) := by
  simp only [addMove, hp, hv, hc]

theorem addMove_new {V : Validator} {t : GameTree} {input : MoveInput}
    {pid : Option Nat} {b : Bool} {parent : GameTreeNode} {res : MoveRes}
    (hp : t.findNode (pid.getD t.currentNodeId) = some parent)
    (hv : V parent.fen input = some res)
    (hc : t.findExistingChild parent res = none) :
    addMove V t input pid b =
      (insertChild t parent (newChildNode t parent res b),
       some (newChildNode t parent res b)) := by
  simp only [addMove, hp, hv, hc]

/-! Characterisations of the duplicate-child search. -/

theorem findExistingChild_eq_none_iff {t : GameTree} {parent : GameTreeNode}
    {res : MoveRes} :
    t.findExistingChild parent res = none ↔
      ∀ c ∈ parent.children, childLookupMatches t res c = false := by
  unfold findExistingChild
  rw [List.findSome?_eq_none_iff]
  constructor
  · intro h c hc
    have := h c hc
    unfold childLookupMatches
    cases hf : t.findNode c with
    | none => rfl
    | some ch =>
      rw [hf] at this
      by_cases hm : childMatches res ch
      · simp [hm] at this
      · simpa using hm
  · intro h c hc
    cases hf : t.findNode c with
    | none => simp [hf]
    | some ch =>
      have hm : childMatches res ch = false := by
        have := h c hc
        unfold childLookupMatches at this
        rw [hf] at this
        exact this
      simp [hf, hm]

theorem findExistingChild_eq_some {t : GameTree} {parent : GameTreeNode}
    {res : MoveRes} {c : GameTreeNode}
    (h : t.findExistingChild parent res = some c) :
    ∃ cid ∈ parent.children, t.findNode cid = some c ∧ childMatches res c = true := by
  unfold findExistingChild at h
  obtain ⟨cid, hcid, hf⟩ := List.exists_of_findSome?_eq_some h
  refine ⟨cid, hcid, ?_⟩
  cases hl : t.findNode cid with
  | none => rw [hl] at hf; cases hf
  | some ch =>
    rw [hl] at hf
    by_cases hm : childMatches res ch
    · simp [hm] at hf
      exact ⟨by rw [hf], by rw [← hf]; simpa using hm⟩
    · simp [hm] at hf

/-- The duplicate test only inspects the origin, destination and promotion
of the move result, so equal signatures give the same predicate. -/
theorem childMatches_ext {res1 res2 : MoveRes}
    (h1 : res1.fromSq = res2.fromSq) (h2 : res1.toSq = res2.toSq)
    (h3 : res1.promotion = res2.promotion) :
    childMatches res1 = childMatches res2 := by
  funext ch
  unfold childMatches
  cases ch.move with
  | none => rfl
  | some m => rw [h1, h2, h3]

theorem findExistingChild_ext {t : GameTree} {parent : GameTreeNode}
    {res1 res2 : MoveRes}
    (h1 : res1.fromSq = res2.fromSq) (h2 : res1.toSq = res2.toSq)
    (h3 : res1.promotion = res2.promotion) :
    t.findExistingChild parent res1 = t.findExistingChild parent res2 := by
  unfold findExistingChild
  rw [childMatches_ext h1 h2 h3]

theorem childMatches_move_congr {res : MoveRes} {m1 m2 : GameTreeNode}
    (h : m1.move = m2.move) : childMatches res m1 = childMatches res m2 := by
  unfold childMatches
  rw [h]

theorem childLookupMatches_ext {t : GameTree} {res1 res2 : MoveRes}
    (h : childMatches res1 = childMatches res2) :
    childLookupMatches t res1 = childLookupMatches t res2 := by
  funext cid
  unfold childLookupMatches
  cases t.findNode cid <;> simp [h]

/-! The structural invariant maintained by the tree operations. -/

/-- Well-formedness of a `GameTree` state: unique identifiers bounded by
the id counter, a parentless root registered in the lookup map, parent
links that point to registered nodes with strictly smaller identifiers
(which makes parent chains finite and cycle-free), a registered current
node, child lists consistent with parent links, and — because `addMove`
checks before inserting — at most one child of any node per
origin/destination/promotion signature. -/
structure WF (t : GameTree) : Prop where
  ids_nodup : (t.nodes.map GameTreeNode.id).Nodup
  ids_le : ∀ n ∈ t.nodes, n.id ≤ t.counter
  root_mem : (t.findNode t.rootId).isSome
  root_parent : ∀ n ∈ t.nodes, n.id = t.rootId → n.parentId = none
  parent_root : ∀ n ∈ t.nodes, n.parentId = none → n.id = t.rootId
  parent_lt : ∀ n ∈ t.nodes, ∀ p, n.parentId = some p → p < n.id
  parent_mem : ∀ n ∈ t.nodes, ∀ p, n.parentId = some p → (t.findNode p).isSome
  current_mem : (t.findNode t.currentNodeId).isSome
  children_ok : ∀ n ∈ t.nodes, ∀ c ∈ n.children,
    ∃ m, t.findNode c = some m ∧ m.parentId = some n.id
  children_sig : ∀ n ∈ t.nodes, ∀ res : MoveRes,
    n.children.countP (childLookupMatches t res) ≤ 1

theorem mem_id_inj {t : GameTree} (hd : (t.nodes.map GameTreeNode.id).Nodup)
    {n m : GameTreeNode} (hn : n ∈ t.nodes) (hm : m ∈ t.nodes)
    (h : n.id = m.id) : n = m := by
  have h1 := findNode_of_mem hd hn
  have h2 := findNode_of_mem hd hm
  rw [h] at h1
  rw [h1] at h2
  exact Option.some_inj.mp h2

theorem nodes_insertChild_map_id (t : GameTree) (parent N : GameTreeNode) :
    ((insertChild t parent N).nodes.map GameTreeNode.id) =
      t.nodes.map GameTreeNode.id ++ [N.id] := by
  show ((t.nodes.map (appendChild parent.id N.id) ++ [N]).map GameTreeNode.id) = _
  rw [List.map_append, List.map_map]
  have : GameTreeNode.id ∘ appendChild parent.id N.id = GameTreeNode.id :=
    funext (appendChild_id parent.id N.id)
  rw [this]
  rfl

theorem mem_insertChild {t : GameTree} {parent N : GameTreeNode} {x : GameTreeNode} :
    x ∈ (insertChild t parent N).nodes ↔
      (∃ n ∈ t.nodes, x = appendChild parent.id N.id n) ∨ x = N := by
  show x ∈ t.nodes.map (appendChild parent.id N.id) ++ [N] ↔ _
  rw [List.mem_append, List.mem_map]
  simp [eq_comm]

theorem childLookupMatches_insertChild_found {t : GameTree}
    {parent N : GameTreeNode} (res : MoveRes) {cid : Nat} {m : GameTreeNode}
    (hm : t.findNode cid = some m) :
    childLookupMatches (insertChild t parent N) res cid =
      childLookupMatches t res cid := by
  unfold childLookupMatches
  rw [findNode_insertChild_old hm, hm]
  exact childMatches_move_congr (appendChild_move parent.id N.id m)

/-- A successful duplicate-free `addMove` preserves well-formedness. -/
theorem wf_insertChild {V : Validator} {t : GameTree} (hWF : WF t)
    {parent : GameTreeNode} {i : Nat} (hp : t.findNode i = some parent)
    {input : MoveInput} {res : MoveRes} (hv : V parent.fen input = some res)
    (hc : t.findExistingChild parent res = none) (b : Bool) :
    WF (insertChild t parent (newChildNode t parent res b)) := by
  set N := newChildNode t parent res b with hN
  have hNid : N.id = t.counter + 1 := rfl
  have hNmove : N.move = some res := rfl
  have hNparent : N.parentId = some parent.id := rfl
  have hNchildren : N.children = ([] : List Nat) := rfl
  have hparmem : parent ∈ t.nodes := findNode_mem hp
  have hfresh : ∀ n ∈ t.nodes, n.id ≠ N.id := by
    intro n hn
    have := hWF.ids_le n hn
    omega
  have hfind_old : ∀ {j : Nat} {m : GameTreeNode}, t.findNode j = some m →
      (insertChild t parent N).findNode j = some (appendChild parent.id N.id m) :=
    fun h => findNode_insertChild_old h
  have hfind_new : (insertChild t parent N).findNode N.id = some N :=
    findNode_insertChild_new hfresh
  have hisSome : ∀ {j : Nat}, (t.findNode j).isSome →
      ((insertChild t parent N).findNode j).isSome := by
    intro j h
    obtain ⟨m, hm⟩ := Option.isSome_iff_exists.mp h
    rw [hfind_old hm]
    rfl
  -- children of an updated entry
  have hchildren_cases : ∀ n ∈ t.nodes,
      (appendChild parent.id N.id n).children = n.children ∨
        (n = parent ∧
          (appendChild parent.id N.id n).children = n.children ++ [N.id]) := by
    intro n hn
    by_cases he : n.id = parent.id
    · right
      exact ⟨mem_id_inj hWF.ids_nodup hn hparmem he,
        appendChild_children_of_eq he⟩
    · left
      exact appendChild_children_of_ne he
  -- no old child identifier matches the fresh id
  have hold_child_ne : ∀ n ∈ t.nodes, ∀ c ∈ n.children, c ≠ N.id := by
    intro n hn c hcmem
    obtain ⟨m, hm, _⟩ := hWF.children_ok n hn c hcmem
    have := findNode_some_id hm
    intro he
    exact hfresh m (findNode_mem hm) (this.trans he)
  constructor
  · -- ids_nodup
    rw [nodes_insertChild_map_id]
    rw [List.nodup_append]
    refine ⟨hWF.ids_nodup, List.nodup_singleton _, ?_⟩
    intro a ha hb
    rw [List.mem_singleton] at hb
    obtain ⟨n, hn, hna⟩ := List.mem_map.mp ha
    exact hfresh n hn (by rw [hna, hb])
  · -- ids_le
    intro x hx
    have hcnt : (insertChild t parent N).counter = N.id := rfl
    rw [hcnt]
    rcases mem_insertChild.mp hx with ⟨n, hn, hxe⟩ | hxe
    · rw [hxe, appendChild_id]
      have := hWF.ids_le n hn
      omega
    · rw [hxe]
  · -- root_mem
    exact hisSome hWF.root_mem
  · -- root_parent
    intro x hx hxid
    have hroot_lt : t.rootId ≤ t.counter := by
      obtain ⟨r, hr⟩ := Option.isSome_iff_exists.mp hWF.root_mem
      have := hWF.ids_le r (findNode_mem hr)
      have hid := findNode_some_id hr
      omega
    rcases mem_insertChild.mp hx with ⟨n, hn, hxe⟩ | hxe
    · rw [hxe, appendChild_parentId]
      refine hWF.root_parent n hn ?_
      rw [← appendChild_id parent.id N.id n, ← hxe]
      exact hxid
    · exfalso
      rw [hxe] at hxid
      have hr : (insertChild t parent N).rootId = t.rootId := rfl
      rw [hr, hNid] at hxid
      omega
  · -- parent_root
    intro x hx hxp
    rcases mem_insertChild.mp hx with ⟨n, hn, hxe⟩ | hxe
    · rw [hxe, appendChild_id]
      refine hWF.parent_root n hn ?_
      rw [← appendChild_parentId parent.id N.id n, ← hxe]
      exact hxp
    · exfalso
      rw [hxe, hNparent] at hxp
      cases hxp
  · -- parent_lt
    intro x hx p hxp
    rcases mem_insertChild.mp hx with ⟨n, hn, hxe⟩ | hxe
    · rw [hxe, appendChild_id]
      rw [hxe, appendChild_parentId] at hxp
      exact hWF.parent_lt n hn p hxp
    · rw [hxe, hNid]
      rw [hxe, hNparent] at hxp
      have : p = parent.id := by
        cases hxp
        rfl
      have hle := hWF.ids_le parent hparmem
      have hpi := findNode_some_id hp
      omega
  · -- parent_mem
    intro x hx p hxp
    rcases mem_insertChild.mp hx with ⟨n, hn, hxe⟩ | hxe
    · rw [hxe, appendChild_parentId] at hxp
      exact hisSome (hWF.parent_mem n hn p hxp)
    · rw [hxe, hNparent] at hxp
      have hpe : p = parent.id := by
        cases hxp
        rfl
      rw [hpe]
      have : t.findNode parent.id = some parent := by
        have := findNode_of_mem hWF.ids_nodup hparmem
        exact this
      exact hisSome (by rw [this]; rfl)
  · -- current_mem
    exact hisSome hWF.current_mem
  · -- children_ok
    intro x hx c hcmem
    rcases mem_insertChild.mp hx with ⟨n, hn, hxe⟩ | hxe
    · have hxid : x.id = n.id := by rw [hxe, appendChild_id]
      rcases hchildren_cases n hn with hch | ⟨hnp, hch⟩
      · rw [hxe, hch] at hcmem
        obtain ⟨m, hm, hmp⟩ := hWF.children_ok n hn c hcmem
        exact ⟨appendChild parent.id N.id m, hfind_old hm, by
          rw [appendChild_parentId, hmp, hxid]⟩
      · rw [hxe, hch, List.mem_append] at hcmem
        rcases hcmem with hcold | hcnew
        · obtain ⟨m, hm, hmp⟩ := hWF.children_ok n hn c hcold
          exact ⟨appendChild parent.id N.id m, hfind_old hm, by
            rw [appendChild_parentId, hmp, hxid]⟩
        · rw [List.mem_singleton] at hcnew
          subst hcnew
          refine ⟨N, hfind_new, ?_⟩
          rw [hNparent, hxid, hnp]
    · rw [hxe, hNchildren] at hcmem
      cases hcmem
  · -- children_sig
    intro x hx resQ
    rcases mem_insertChild.mp hx with ⟨n, hn, hxe⟩ | hxe
    · have hpred : ∀ c ∈ n.children,
          childLookupMatches (insertChild t parent N) resQ c =
            childLookupMatches t resQ c := by
        intro c hcmem
        obtain ⟨m, hm, _⟩ := hWF.children_ok n hn c hcmem
        exact childLookupMatches_insertChild_found resQ hm
      rcases hchildren_cases n hn with hch | ⟨hnp, hch⟩
      · rw [hxe, hch]
        calc n.children.countP (childLookupMatches (insertChild t parent N) resQ)
            = n.children.countP (childLookupMatches t resQ) :=
              List.countP_congr (fun c hcmem => by rw [hpred c hcmem])
          _ ≤ 1 := hWF.children_sig n hn resQ
      · subst hnp
        rw [hxe, hch, List.countP_append]
        have hold : n.children.countP
            (childLookupMatches (insertChild t n N) resQ) =
            n.children.countP (childLookupMatches t resQ) :=
          List.countP_congr (fun c hcmem => by rw [hpred c hcmem])
        rw [hold]
        have hnewc : ([N.id] : List Nat).countP
            (childLookupMatches (insertChild t n N) resQ) =
            if childMatches resQ N then 1 else 0 := by
          have : childLookupMatches (insertChild t n N) resQ N.id =
              childMatches resQ N := by
            unfold childLookupMatches
            rw [hfind_new]
          rw [List.countP_singleton, this]
        rw [hnewc]
        by_cases hmatch : childMatches resQ N = true
        · -- the fresh child matches `resQ`, hence `resQ` has the same
          -- signature as `res` and no old child matches it
          have hsig : res.fromSq = resQ.fromSq ∧ res.toSq = resQ.toSq ∧
              res.promotion = resQ.promotion := by
            have : childMatches resQ N =
                (res.fromSq == resQ.fromSq && res.toSq == resQ.toSq &&
                  res.promotion == resQ.promotion) := rfl
            rw [this] at hmatch
            simp only [Bool.and_eq_true, beq_iff_eq] at hmatch
            exact ⟨hmatch.1.1, hmatch.1.2, hmatch.2⟩
          have hext : childLookupMatches t res = childLookupMatches t resQ :=
            childLookupMatches_ext (childMatches_ext hsig.1 hsig.2.1 hsig.2.2)
          have hzero : n.children.countP (childLookupMatches t resQ) = 0 := by
            rw [← hext]
            rw [List.countP_eq_zero]
            intro c hcmem
            have := findExistingChild_eq_none_iff.mp hc c hcmem
            simp [this]
          rw [hzero, hmatch]
          simp
        · have : childMatches resQ N = false := by
            simpa using hmatch
          rw [this]
          have hb : (if (false : Bool) = true then 1 else 0) = 0 := rfl
          rw [hb, Nat.add_zero]
          exact hWF.children_sig n hn resQ
    · rw [hxe, hNchildren]
      simp

/-- When `addMove` returns a node, that node is registered in the
resulting tree under its own identifier. -/
theorem addMove_result_found {V : Validator} {t : GameTree} (hWF : WF t)
    {input : MoveInput} {pid : Option Nat} {b : Bool} {n : GameTreeNode}
    (h : (addMove V t input pid b).2 = some n) :
    ((addMove V t input pid b).1.findNode n.id) = some n := by
  cases hp : t.findNode (pid.getD t.currentNodeId) with
  | none => rw [addMove_parent_missing hp] at h ⊢; cases h
  | some parent =>
    cases hv : V parent.fen input with
    | none => rw [addMove_illegal hp hv] at h ⊢; cases h
    | some res =>
      cases hc : t.findExistingChild parent res with
      | some c =>
        rw [addMove_existing hp hv hc] at h ⊢
        have hcn : c = n := by
          simpa using h
        subst hcn
        obtain ⟨cid, _, hf, _⟩ := findExistingChild_eq_some hc
        have hid := findNode_some_id hf
        rw [← hid] at hf
        exact hf
      | none =>
        rw [addMove_new hp hv hc] at h ⊢
        have hn : newChildNode t parent res b = n := by
          simpa using h
        have hfresh : ∀ m ∈ t.nodes, m.id ≠ (newChildNode t parent res b).id := by
          intro m hm
          have := hWF.ids_le m hm
          have : m.id ≤ t.counter := this
          intro he
          rw [he] at this
          exact absurd this (by
            have : (newChildNode t parent res b).id = t.counter + 1 := rfl
            omega)
        rw [← hn]
        exact findNode_insertChild_new hfresh

theorem wf_mkRoot (pos : Position) (c0 : Nat) : WF (mkRoot pos c0) := by
  constructor
  all_goals simp [mkRoot, findNode, List.find?]

theorem wf_setCurrent {t : GameTree} (hWF : WF t) {i : Nat}
    (h : (t.findNode i).isSome) : WF { t with currentNodeId := i } := by
  refine ⟨hWF.ids_nodup, hWF.ids_le, hWF.root_mem, hWF.root_parent,
    hWF.parent_root, hWF.parent_lt, hWF.parent_mem, h, hWF.children_ok,
    hWF.children_sig⟩

theorem wf_navigateToNode {t : GameTree} (hWF : WF t) (i : Nat) :
    WF (navigateToNode t i).1 := by
  unfold navigateToNode
  by_cases h : (t.findNode i).isSome
  · rw [if_pos h]
    exact wf_setCurrent hWF h
  · rw [if_neg h]
    exact hWF

theorem wf_addMove {V : Validator} {t : GameTree} (hWF : WF t)
    (input : MoveInput) (pid : Option Nat) (b : Bool) :
    WF (addMove V t input pid b).1 := by
  cases hp : t.findNode (pid.getD t.currentNodeId) with
  | none => rw [addMove_parent_missing hp]; exact hWF
  | some parent =>
    cases hv : V parent.fen input with
    | none => rw [addMove_illegal hp hv]; exact hWF
    | some res =>
      cases hc : t.findExistingChild parent res with
      | some c => rw [addMove_existing hp hv hc]; exact hWF
      | none =>
        rw [addMove_new hp hv hc]
        exact wf_insertChild hWF hp hv hc b

theorem wf_buildMainLine {V : Validator} :
    ∀ (ms : List MoveInput) (t : GameTree) (pid : Nat), WF t →
      (t.findNode pid).isSome →
      WF (buildMainLine V t pid ms).1 ∧
        ((buildMainLine V t pid ms).1.findNode (buildMainLine V t pid ms).2).isSome := by
  intro ms
  induction ms with
  | nil =>
    intro t pid hWF hpid
    exact ⟨hWF, hpid⟩
  | cons m ms ih =>
    intro t pid hWF hpid
    have hunf : buildMainLine V t pid (m :: ms) =
        (match addMove V t m (some pid) true with
         | (t', some n) => buildMainLine V t' n.id ms
         | (t', none) => buildMainLine V t' pid ms) := rfl
    rw [hunf]
    cases ha : addMove V t m (some pid) true with
    | mk t' r =>
      have hWF' : WF t' := by
        have := @wf_addMove V t hWF m (some pid) true
        rw [ha] at this
        exact this
      cases r with
      | none =>
        have hpid' : (t'.findNode pid).isSome := by
          cases hp : t.findNode ((some pid).getD t.currentNodeId) with
          | none =>
            have := @addMove_parent_missing V t m (some pid) true hp
            rw [ha] at this
            cases this
            simpa using hpid
          | some parent =>
            cases hv : V parent.fen m with
            | none =>
              have := @addMove_illegal V t m (some pid) true parent hp hv
              rw [ha] at this
              cases this
              simpa using hpid
            | some res =>
              cases hc : t.findExistingChild parent res with
              | some c =>
                have := @addMove_existing V t m (some pid) true parent res c hp hv hc
                rw [ha] at this
                cases this
              | none =>
                have := @addMove_new V t m (some pid) true parent res hp hv hc
                rw [ha] at this
                cases this
        exact ih t' pid hWF' hpid'
      | some n =>
        have hn : (t'.findNode n.id).isSome := by
          have := @addMove_result_found V t hWF m (some pid) true n (by rw [ha])
          rw [ha] at this
          rw [this]
          rfl
        exact ih t' n.id hWF' hn

theorem wf_new (V : Validator) (pos : Position) (ml : List MoveInput) (c0 : Nat) :
    WF (new V pos ml c0) := by
  unfold new
  have h0 := wf_mkRoot pos c0
  have hroot : ((mkRoot pos c0).findNode (mkRoot pos c0).rootId).isSome :=
    h0.root_mem
  have h := @wf_buildMainLine V ml (mkRoot pos c0) (mkRoot pos c0).rootId h0 hroot
  exact wf_setCurrent h.1 h.2

/-- The states reachable through the public tree operations: construction,
move insertion and navigation. -/
inductive Built (V : Validator) : GameTree → Prop where
  | new : ∀ (pos : Position) (ml : List MoveInput) (c0 : Nat),
      Built V (GameTree.new V pos ml c0)
  | add : ∀ {t : GameTree} (input : MoveInput) (pid : Option Nat) (b : Bool),
      Built V t → Built V (addMove V t input pid b).1
  | nav : ∀ {t : GameTree} (i : Nat),
      Built V t → Built V (navigateToNode t i).1

theorem built_wf {V : Validator} {t : GameTree} (h : Built V t) : WF t := by
  induction h with
  | new pos ml c0 => exact wf_new V pos ml c0
  | add input pid b _ ih => exact wf_addMove ih input pid b
  | nav i _ ih => exact wf_navigateToNode ih i

/-! Correctness of the parent-chain walk. -/

theorem aux_parent_none {t : GameTree} {c : GameTreeNode} (fuel : Nat)
    (h : c.parentId = none) : getMovesToNodeAux t fuel c = [c] := by
  rw [getMovesToNodeAux, h]

theorem aux_zero {t : GameTree} {c : GameTreeNode} {p : Nat}
    (h : c.parentId = some p) : getMovesToNodeAux t 0 c = [c] := by
  rw [getMovesToNodeAux, h]

theorem aux_succ_found {t : GameTree} {c par : GameTreeNode} {p : Nat} {f : Nat}
    (h : c.parentId = some p) (hf : t.findNode p = some par) :
    getMovesToNodeAux t (f + 1) c = getMovesToNodeAux t f par ++ [c] := by
  rw [getMovesToNodeAux, h]
  show (match t.findNode p with
    | none => [c]
    | some par => getMovesToNodeAux t f par ++ [c]) = _
  rw [hf]

/-- Specification of the parent-chain walk on a well-formed tree, for any
fuel at least the starting node's identifier (parent identifiers strictly
decrease, so the walk performs at most `c.id` steps): the resulting path
starts at the root, ends at `c`, follows parent links, stays inside the
tree, and strictly increases in identifier (hence is cycle-free). -/
theorem getMovesToNodeAux_spec {t : GameTree} (hWF : WF t) :
    ∀ (fuel : Nat) (c : GameTreeNode), c ∈ t.nodes → c.id ≤ fuel →
      ∃ r, t.findNode t.rootId = some r ∧
        (getMovesToNodeAux t fuel c).head? = some r ∧
        (getMovesToNodeAux t fuel c).getLast? = some c ∧
        List.Chain' (fun a b => b.parentId = some a.id) (getMovesToNodeAux t fuel c) ∧
        (∀ x ∈ getMovesToNodeAux t fuel c, x ∈ t.nodes ∧ x.id ≤ c.id) ∧
        List.Pairwise (fun a b => a.id < b.id) (getMovesToNodeAux t fuel c) := by
  intro fuel
  induction fuel with
  | zero =>
    intro c hc hle
    cases hpar : c.parentId with
    | none =>
      rw [aux_parent_none 0 hpar]
      have hcr : c.id = t.rootId := hWF.parent_root c hc hpar
      refine ⟨c, ?_, rfl, rfl, ?_, ?_, ?_⟩
      · rw [← hcr]
        exact findNode_of_mem hWF.ids_nodup hc
      · exact List.chain'_singleton c
      · intro x hx
        rw [List.mem_singleton] at hx
        subst hx
        exact ⟨hc, Nat.le_refl _⟩
      · exact List.pairwise_singleton _ c
    | some p =>
      exfalso
      have := hWF.parent_lt c hc p hpar
      omega
  | succ f ih =>
    intro c hc hle
    cases hpar : c.parentId with
    | none =>
      rw [aux_parent_none (f + 1) hpar]
      have hcr : c.id = t.rootId := hWF.parent_root c hc hpar
      refine ⟨c, ?_, rfl, rfl, ?_, ?_, ?_⟩
      · rw [← hcr]
        exact findNode_of_mem hWF.ids_nodup hc
      · exact List.chain'_singleton c
      · intro x hx
        rw [List.mem_singleton] at hx
        subst hx
        exact ⟨hc, Nat.le_refl _⟩
      · exact List.pairwise_singleton _ c
    | some p =>
      have hplt : p < c.id := hWF.parent_lt c hc p hpar
      obtain ⟨par, hpf⟩ := Option.isSome_iff_exists.mp (hWF.parent_mem c hc p hpar)
      have hparid : par.id = p := findNode_some_id hpf
      have hparm : par ∈ t.nodes := findNode_mem hpf
      have hparle : par.id ≤ f := by omega
      obtain ⟨r, hr, hhead, hlast, hchain, hbound, hpw⟩ := ih par hparm hparle
      rw [aux_succ_found hpar hpf]
      refine ⟨r, hr, ?_, ?_, ?_, ?_, ?_⟩
      · rw [List.head?_append, hhead]
        rfl
      · simp
      · rw [List.chain'_append]
        refine ⟨hchain, List.chain'_singleton c, ?_⟩
        intro x hx y hy
        rw [hlast] at hx
        have hx' : par = x := by simpa using hx
        have hy' : c = y := by simpa using hy
        rw [← hx', ← hy', hpar, hparid]
      · intro x hx
        rw [List.mem_append] at hx
        rcases hx with hx | hx
        · obtain ⟨hxm, hxle⟩ := hbound x hx
          exact ⟨hxm, by omega⟩
        · rw [List.mem_singleton] at hx
          subst hx
          exact ⟨hc, Nat.le_refl _⟩
      · rw [List.pairwise_append]
        refine ⟨hpw, List.pairwise_singleton _ c, ?_⟩
        intro a ha b hb
        rw [List.mem_singleton] at hb
        subst hb
        have := (hbound a ha).2
        omega

/-! Frame behaviour of `navigateToNode`. -/

theorem navigateToNode_success (t : GameTree) (i : Nat) :
    (navigateToNode t i).2 = (t.findNode i).isSome := by
  unfold navigateToNode
  by_cases h : (t.findNode i).isSome
  · rw [if_pos h, h]
  · rw [if_neg h]
    simp only [Bool.false_eq]
    exact (Bool.not_eq_true _).mp (by simpa using h)

theorem navigateToNode_nodes (t : GameTree) (i : Nat) :
    (navigateToNode t i).1.nodes = t.nodes ∧
      (navigateToNode t i).1.rootId = t.rootId ∧
      (navigateToNode t i).1.counter = t.counter := by
  unfold navigateToNode
  by_cases h : (t.findNode i).isSome
  · rw [if_pos h]
    exact ⟨rfl, rfl, rfl⟩
  · rw [if_neg h]
    exact ⟨rfl, rfl, rfl⟩

/-- Frame behaviour of `addMove`: every node present before the call is
still present, with the same identifier, position, move, notation text,
parent link, main-line flag and move number; its child list is at most
extended. -/
theorem addMove_frame (V : Validator) (t : GameTree) (input : MoveInput)
    (pid : Option Nat) (b : Bool) :
    ∀ n ∈ t.nodes, ∃ n' ∈ (addMove V t input pid b).1.nodes,
      n'.id = n.id ∧ n'.fen = n.fen ∧ n'.move = n.move ∧ n'.san = n.san ∧
      n'.parentId = n.parentId ∧ n'.isMainLine = n.isMainLine ∧
      n'.startingMoveNumber = n.startingMoveNumber ∧
      ∃ ext, n'.children = n.children ++ ext := by
  intro n hn
  cases hp : t.findNode (pid.getD t.currentNodeId) with
  | none =>
    rw [addMove_parent_missing hp]
    exact ⟨n, hn, rfl, rfl, rfl, rfl, rfl, rfl, rfl, [], by simp⟩
  | some parent =>
    cases hv : V parent.fen input with
    | none =>
      rw [addMove_illegal hp hv]
      exact ⟨n, hn, rfl, rfl, rfl, rfl, rfl, rfl, rfl, [], by simp⟩
    | some res =>
      cases hc : t.findExistingChild parent res with
      | some c =>
        rw [addMove_existing hp hv hc]
        exact ⟨n, hn, rfl, rfl, rfl, rfl, rfl, rfl, rfl, [], by simp⟩
      | none =>
        rw [addMove_new hp hv hc]
        refine ⟨appendChild parent.id (newChildNode t parent res b).id n, ?_, ?_⟩
        · show _ ∈ t.nodes.map (appendChild parent.id (newChildNode t parent res b).id)
            ++ [newChildNode t parent res b]
          exact List.mem_append_left _ (List.mem_map_of_mem _ hn)
        · exact ⟨appendChild_id _ _ n, appendChild_fen _ _ n, appendChild_move _ _ n,
            appendChild_san _ _ n, appendChild_parentId _ _ n,
            appendChild_isMainLine _ _ n, appendChild_startingMoveNumber _ _ n,
            appendChild_children _ _ n⟩

end GameTree

/-! ## The spec-side rendering of a path

`formatPathToPgn` builds one flat string; the specification describes it
as tokens — each white move preceded by a `<number>.` token, the first
move of a black-to-move path preceded by a `<number>...` token, every
other move just its algebraic text — joined by spaces and trimmed. -/

/-- Token list of a rendered path, following the specification's wording:
a white move is prefixed with its move number and a period; if the path
begins with a black move (custom start position) the first number uses the
black-continuation form `<number>...`; other black moves carry no number. -/
def pathTokens : List GameTreeNode → Bool → List String
  | [], _ => []
  | n :: ns, isFirst =>
    match n.move with
    | none => pathTokens ns isFirst
    | some m =>
      if m.color = Color.w then
        (toString n.startingMoveNumber ++ ".") :: n.san :: pathTokens ns false
      else if isFirst then
        (toString n.startingMoveNumber ++ "...") :: n.san :: pathTokens ns false
      else
        n.san :: pathTokens ns false

/-- Join tokens with single spaces (and one trailing space, removed by the
final trim). -/
def joinTokens : List String → String
  | [] => ""
  | tok :: toks => tok ++ " " ++ joinTokens toks

theorem formatPathAux_eq_joinTokens :
    ∀ (ns : List GameTreeNode) (b : Bool),
      formatPathAux ns b = joinTokens (pathTokens ns b) := by
  intro ns
  induction ns with
  | nil => intro b; rfl
  | cons n ns ih =>
    intro b
    show (match n.move with
      | none => formatPathAux ns b
      | some m =>
        (if m.color = Color.w then toString n.startingMoveNumber ++ ". "
         else if b then toString n.startingMoveNumber ++ "... "
         else "")
          ++ n.san ++ " " ++ formatPathAux ns false) = _
    cases hm : n.move with
    | none =>
      show formatPathAux ns b = joinTokens (pathTokens (n :: ns) b)
      rw [ih b]
      congr 1
      show pathTokens ns b = pathTokens (n :: ns) b
      conv_rhs => rw [pathTokens]
      rw [hm]
    | some m =>
      have hpt : pathTokens (n :: ns) b =
          (if m.color = Color.w then
            (toString n.startingMoveNumber ++ ".") :: n.san :: pathTokens ns false
          else if b then
            (toString n.startingMoveNumber ++ "...") :: n.san :: pathTokens ns false
          else
            n.san :: pathTokens ns false) := by
        conv_lhs => rw [pathTokens]
        rw [hm]
      rw [hpt]
      show (if m.color = Color.w then toString n.startingMoveNumber ++ ". "
            else if b = true then toString n.startingMoveNumber ++ "... "
            else "") ++ n.san ++ " " ++ formatPathAux ns false = _
      by_cases hw : m.color = Color.w
      · rw [if_pos hw, if_pos hw]
        show toString n.startingMoveNumber ++ ". " ++ n.san ++ " " ++ formatPathAux ns false =
          toString n.startingMoveNumber ++ "." ++ " " ++ (n.san ++ " " ++ joinTokens (pathTokens ns false))
        rw [ih false]
        have hdot : (". " : String) = "." ++ " " := rfl
        rw [hdot]
        simp [String.append_assoc]
      · rw [if_neg hw, if_neg hw]
        by_cases hb : b = true
        · rw [if_pos hb, if_pos hb]
          show toString n.startingMoveNumber ++ "... " ++ n.san ++ " " ++ formatPathAux ns false =
            toString n.startingMoveNumber ++ "..." ++ " " ++ (n.san ++ " " ++ joinTokens (pathTokens ns false))
          rw [ih false]
          have hdots : ("... " : String) = "..." ++ " " := rfl
          rw [hdots]
          simp [String.append_assoc]
        · rw [if_neg hb, if_neg hb]
          show ("" : String) ++ n.san ++ " " ++ formatPathAux ns false =
            n.san ++ " " ++ joinTokens (pathTokens ns false)
          rw [ih false]
          have hemp : ("" : String) ++ n.san = n.san := rfl
          rw [hemp]

/-! ## Protocol client (spec-modelled)

The `StockfishEngine` class itself is not part of the repository snapshot
(only its unit tests and its callers are), so the pieces of it the claims
mention are modelled from the specification text and checked against the
in-repository tests' expectations. -/

/-- An engine evaluation score: centipawns or mate-in-N plies
(tagged union of the spec's data model). -/
inductive Score where
  | cp (v : Int)
  | mate (v : Int)
deriving DecidableEq, Repr

/-- Plies-to-mate for a mate score, the raw value otherwise. -/
def Score.value : Score → Int
  | .cp v => v
  | .mate v => v

/-- Whether a score is a mate score. -/
def Score.isMate : Score → Bool
  | .cp _ => false
  | .mate _ => true

/-- One evaluation line of a search result: the engine-reported rank
(`multipv`), the principal variation and the score (depth and the other
reported fields do not participate in the ordering claims). -/
structure StockfishLine where
  multipv : Nat
  pv : String
  score : Score
deriving DecidableEq, Repr

/-- Insertion of an element into a list sorted by the Boolean relation. -/
def insertSorted (le : StockfishLine → StockfishLine → Bool) (x : StockfishLine) :
    List StockfishLine → List StockfishLine
  | [] => [x]
  | y :: ys => if le x y then x :: y :: ys else y :: insertSorted le x ys

/-- Insertion sort by the Boolean relation. -/
def insertionSort (le : StockfishLine → StockfishLine → Bool) :
    List StockfishLine → List StockfishLine
  | [] => []
  | x :: xs => insertSorted le x (insertionSort le xs)

/-- Modelled from the spec: the completion step of `getTopMoves`
(`postEngineRun` in the missing `StockfishEngine.ts`).  "On completion,
evaluation lines are sorted: all mate-scored lines first ordered by fewest
plies to mate, then all centipawn-scored lines ordered by descending
score; rank labels are preserved as originally reported."  The collected
lines are split into mate lines and centipawn lines; mate lines are
sorted ascending by plies-to-mate, centipawn lines descending by value,
and the two groups are concatenated, mates first. -/
def sortLines (lines : List StockfishLine) : List StockfishLine :=
  let mateMoves := lines.filter (fun l => l.score.isMate)
  let cpMoves := lines.filter (fun l => !l.score.isMate)
  insertionSort (fun a b => a.score.value ≤ b.score.value) mateMoves ++
    insertionSort (fun a b => b.score.value ≤ a.score.value) cpMoves

theorem mem_insertSorted {le : StockfishLine → StockfishLine → Bool}
    {x y : StockfishLine} :
    ∀ {l : List StockfishLine}, y ∈ insertSorted le x l ↔ y = x ∨ y ∈ l := by
  intro l
  induction l with
  | nil => simp [insertSorted]
  | cons z zs ih =>
    show y ∈ (if le x z then x :: z :: zs else z :: insertSorted le x zs) ↔ _
    by_cases h : le x z
    · rw [if_pos h]
      simp [or_assoc]
    · rw [if_neg h]
      simp only [List.mem_cons, ih]
      tauto

theorem sorted_insertSorted {le : StockfishLine → StockfishLine → Bool}
    (htot : ∀ a b, le a b = true ∨ le b a = true)
    (htrans : ∀ a b c, le a b = true → le b c = true → le a c = true)
    (x : StockfishLine) :
    ∀ {l : List StockfishLine},
      l.Pairwise (fun a b => le a b = true) →
      (insertSorted le x l).Pairwise (fun a b => le a b = true) := by
  intro l
  induction l with
  | nil =>
    intro _
    simp [insertSorted]
  | cons z zs ih =>
    intro hs
    rw [List.pairwise_cons] at hs
    show (if le x z then x :: z :: zs else z :: insertSorted le x zs).Pairwise _
    by_cases h : le x z
    · rw [if_pos h]
      rw [List.pairwise_cons]
      refine ⟨?_, List.pairwise_cons.mpr hs⟩
      intro a ha
      rcases List.mem_cons.mp ha with rfl | ha
      · exact h
      · exact htrans x z a h (hs.1 a ha)
    · rw [if_neg h]
      rw [List.pairwise_cons]
      refine ⟨?_, ih hs.2⟩
      intro a ha
      rcases mem_insertSorted.mp ha with rfl | ha
      · rcases htot z a with hza | haz
        · exact hza
        · exact absurd haz (by simpa using h)
      · exact hs.1 a ha

theorem sorted_insertionSort {le : StockfishLine → StockfishLine → Bool}
    (htot : ∀ a b, le a b = true ∨ le b a = true)
    (htrans : ∀ a b c, le a b = true → le b c = true → le a c = true) :
    ∀ (l : List StockfishLine),
      (insertionSort le l).Pairwise (fun a b => le a b = true) := by
  intro l
  induction l with
  | nil => exact List.Pairwise.nil
  | cons x xs ih => exact sorted_insertSorted htot htrans x ih

theorem perm_insertSorted (le : StockfishLine → StockfishLine → Bool)
    (x : StockfishLine) :
    ∀ (l : List StockfishLine), (insertSorted le x l).Perm (x :: l) := by
  intro l
  induction l with
  | nil => exact List.Perm.refl _
  | cons z zs ih =>
    show (if le x z then x :: z :: zs else z :: insertSorted le x zs).Perm _
    by_cases h : le x z
    · rw [if_pos h]
    · rw [if_neg h]
      exact (ih.cons z).trans (List.Perm.swap x z zs)

theorem perm_insertionSort (le : StockfishLine → StockfishLine → Bool) :
    ∀ (l : List StockfishLine), (insertionSort le l).Perm l := by
  intro l
  induction l with
  | nil => exact List.Perm.refl _
  | cons x xs ih =>
    exact (perm_insertSorted le x (insertionSort le xs)).trans (ih.cons x)

theorem mem_insertionSort {le : StockfishLine → StockfishLine → Bool}
    {y : StockfishLine} {l : List StockfishLine} :
    y ∈ insertionSort le l ↔ y ∈ l :=
  (perm_insertionSort le l).mem_iff

/-- The wire commands the client sends, per the spec's protocol table. -/
inductive EngineCommand where
  | positionFen (fen : String)
  | goDepth (n : Nat)
  | setOptionMultiPV (n : Nat)
  | stopCmd
  | quitCmd
deriving DecidableEq, Repr

/-- Whether a command configures the parallel-line count (`MultiPV`). -/
def EngineCommand.isMultiPV : EngineCommand → Bool
  | .setOptionMultiPV _ => true
  | _ => false

/-- Modelled from the spec: the configuration commands issued by a
completed `getTopMoves(position, count, depth)` call
(`StockfishEngine.ts` is not in the repository snapshot; the sequence is
the one its unit test asserts): "set the engine's parallel-line-count
option to `count`, run the search exactly as above, then — critically —
reset the parallel-line-count option back to 1 before signaling
completion". -/
def getTopMovesCommands (fen : String) (count depth : Nat) : List EngineCommand :=
  [EngineCommand.setOptionMultiPV count,
   EngineCommand.positionFen fen,
   EngineCommand.goDepth depth,
   EngineCommand.setOptionMultiPV 1]

/-- One review progress event: moves processed so far out of the total,
the completion flag, and (for the final event) the aggregated summary. -/
structure ReviewProgress (σ : Type) where
  processed : Nat
  total : Nat
  done : Bool
  summary : Option σ
deriving DecidableEq, Repr

/-- Modelled from the spec: the progress stream of
`reviewGame(playedMoves, depth)` (the pipeline lives in the missing
`StockfishEngine.ts`): for each played move in order, "emit a progress
update (processed count, total count, done=false)"; after the last move,
"emit a final progress update with done=true" resolving with the
aggregated summary (`summarize` stands for the per-side aggregation,
whose exact policy the spec leaves open). -/
def reviewGameEvents {μ σ : Type} (moves : List μ) (summarize : List μ → σ) :
    List (ReviewProgress σ) :=
  (List.range moves.length).map (fun k =>
    { processed := k + 1, total := moves.length, done := false, summary := none }) ++
  [{ processed := moves.length, total := moves.length, done := true,
     summary := some (summarize moves) }]

/-! ## A concrete instance of the move-validation service

A miniature deterministic validator agreeing with chess.js on the opening
sequence 1. e4 e5, used to evaluate the embedded tree operations on
concrete inputs. -/

/-- The standard starting position (fullmove 1, white to move). -/
def startPos : Position :=
  { board := "rnbqkbnr/pppppppp/8/8/8/8/PPPPPPPP/RNBQKBNR", turn := Color.w,
    rest := "KQkq - 0", fullmove := 1 }

/-- Position after 1. e4 (fullmove still 1, black to move). -/
def posE4 : Position :=
  { board := "rnbqkbnr/pppppppp/8/8/4P3/8/PPPP1PPP/RNBQKBNR", turn := Color.b,
    rest := "KQkq e3 0", fullmove := 1 }

/-- Position after 1. e4 e5 (fullmove 2, white to move — chess.js
increments the fullmove counter when black moves). -/
def posE4E5 : Position :=
  { board := "rnbqkbnr/pppp1ppp/8/4p3/4P3/8/PPPP1PPP/RNBQKBNR", turn := Color.w,
    rest := "KQkq e6 0", fullmove := 2 }

/-- chess.js result of `move('e4')` from the start position. -/
def e4Res : MoveRes :=
  { san := "e4", fromSq := "e2", toSq := "e4", promotion := none,
    color := Color.w, after := posE4 }

/-- chess.js result of `move('e5')` after 1. e4. -/
def e5Res : MoveRes :=
  { san := "e5", fromSq := "e7", toSq := "e5", promotion := none,
    color := Color.b, after := posE4E5 }

/-- The miniature validator: accepts exactly 1. e4 and 1... e5 (in both
SAN and coordinate form), rejects everything else. -/
def toyV : Validator := fun pos input =>
  if pos = startPos ∧
      (input = MoveInput.sanStr "e4" ∨ input = MoveInput.coords "e2" "e4" none) then
    some e4Res
  else if pos = posE4 ∧
      (input = MoveInput.sanStr "e5" ∨ input = MoveInput.coords "e7" "e5" none) then
    some e5Res
  else none

/-- A fresh tree on the standard starting position (id counter at 0). -/
def tree0 : GameTree := GameTree.new toyV startPos [] 0

/-- `tree0` after `addMove('e4')` (parent defaulted to the current node). -/
def tree1 : GameTree :=
  (GameTree.addMove toyV tree0 (MoveInput.sanStr "e4") none false).1

/-- The root node record of `tree0`. -/
def rootNode0 : GameTreeNode :=
  { id := 1, fen := startPos, move := none, san := "", parentId := none,
    children := [], isMainLine := true, startingMoveNumber := 1 }

/-- Position after 1. e4 e5 2. Nf3 (display data only). -/
def posNf3 : Position :=
  { board := "rnbqkbnr/pppp1ppp/8/4p3/4P3/5N2/PPPP1PPP/RNBQKB1R", turn := Color.b,
    rest := "KQkq - 1", fullmove := 2 }

/-- chess.js result of `move('Nf3')` after 1. e4 e5. -/
def nf3Res : MoveRes :=
  { san := "Nf3", fromSq := "g1", toSq := "f3", promotion := none,
    color := Color.w, after := posNf3 }

/-- Display node for 1. e4 with the conventional move number. -/
def nE4 : GameTreeNode :=
  { id := 11, fen := posE4, move := some e4Res, san := "e4", parentId := some 10,
    children := [12], isMainLine := true, startingMoveNumber := 1 }

/-- Display node for 1... e5 with the conventional move number. -/
def nE5 : GameTreeNode :=
  { id := 12, fen := posE4E5, move := some e5Res, san := "e5", parentId := some 11,
    children := [13], isMainLine := true, startingMoveNumber := 1 }

/-- Display node for 2. Nf3. -/
def nNf3 : GameTreeNode :=
  { id := 13, fen := posNf3, move := some nf3Res, san := "Nf3", parentId := some 12,
    children := [], isMainLine := true, startingMoveNumber := 2 }

/-! ## Claim theorems -/

/-- C3: the claim states that the new node's stored move number equals the
fullmove number of the parent's position ("the number of the move about to
be made"), and the repository's own unit tests and the source comment
agree — but the code reads `chess.moveNumber()` from the instance that has
already performed the move, so a black move stores the parent's fullmove
number plus one.  Concretely: adding "e4" at the standard start does yield
notation "e4", move number 1 and the root as parent (third conjunct), but
adding black's reply "e5" stores move number 2 (first conjunct) although
the parent position's fullmove number is 1 (second conjunct); the
repository test expects 1 there. -/
theorem addMove_black_number_mismatch :
    ((GameTree.addMove toyV tree1 (MoveInput.sanStr "e5") (some 2) false).2.map
      (fun n => n.startingMoveNumber)) = some 2 ∧
    ((tree1.findNode 2).map (fun n => n.fen.fullmove)) = some 1 ∧
    ((GameTree.addMove toyV tree0 (MoveInput.sanStr "e4") none false).2.map
      (fun n => (n.san, n.startingMoveNumber, n.parentId))) =
        some ("e4", 1, some tree0.rootId) :=
  ⟨by decide, by decide, by decide⟩

namespace GameTree

/-- C4: when the move-validation service rejects the candidate move — the
embedding's `none` covers both a `null` return and a thrown error, which
`addMove` catches — `addMove` returns the null result, never an exception,
and the tree value is completely unchanged: same node list (hence no new
node and no modified child list), same lookup behaviour, same root,
current-node identifier and counter. -/
theorem addMove_illegal_atomic {V : Validator} {t : GameTree} {input : MoveInput}
    {pid : Option Nat} {b : Bool} {parent : GameTreeNode}
    (hp : t.findNode (pid.getD t.currentNodeId) = some parent)
    (hv : V parent.fen input = none) :
    (addMove V t input pid b).2 = none ∧ (addMove V t input pid b).1 = t := by
  rw [addMove_illegal hp hv]
  exact ⟨rfl, rfl⟩

/-- Witness for C4: 1... e5 is illegal from the standard start position;
`addMove` rejects it and leaves the fresh tree untouched. -/
theorem addMove_illegal_atomic_witness :
    (addMove toyV tree0 (MoveInput.sanStr "e5") none false).2 = none ∧
    (addMove toyV tree0 (MoveInput.sanStr "e5") none false).1 = tree0 :=
  @addMove_illegal_atomic toyV tree0 (MoveInput.sanStr "e5") none false rootNode0
    (by decide) (by decide)

/-- C10: a missing (or falsy) parent identifier is silently replaced by
the tracked current node — the call does not fail on that account — while
a supplied identifier that is absent from the lookup map makes `addMove`
return the null result with the tree unchanged. -/
theorem addMove_default_parent (V : Validator) (t : GameTree) (input : MoveInput)
    (b : Bool) {pid : Nat} (h : t.findNode pid = none) :
    addMove V t input none b = addMove V t input (some t.currentNodeId) b ∧
    addMove V t input (some pid) b = (t, none) :=
  ⟨rfl, addMove_parent_missing h⟩

/-- Witness for C10: identifier 99 is not in the fresh tree. -/
theorem addMove_default_parent_witness :
    addMove toyV tree0 (MoveInput.sanStr "e4") none false =
      addMove toyV tree0 (MoveInput.sanStr "e4") (some tree0.currentNodeId) false ∧
    addMove toyV tree0 (MoveInput.sanStr "e4") (some 99) false = (tree0, none) :=
  @addMove_default_parent toyV tree0 (MoveInput.sanStr "e4") false 99 (by decide)

end GameTree

/-- C7: `formatPathToPgn` renders a path exactly as the specification
describes: the moves' algebraic texts joined by single spaces, each white
move preceded by a `<number>.` token built from its stored move number,
the first move preceded instead by the black-continuation token
`<number>...` when it is a black move (custom start position), and no
token before any other black move — followed by the final trim.  The
second and third conjuncts check the repository's own test strings on
conventionally numbered paths, including the black-start continuation
form. -/
theorem formatPathToPgn_renders_numbering (t : GameTree) (nodes : List GameTreeNode) :
    GameTree.formatPathToPgn t nodes = jsTrim (joinTokens (pathTokens nodes true)) ∧
    GameTree.formatPathToPgn tree0 [nE4, nE5, nNf3] = "1. e4 e5 2. Nf3" ∧
    GameTree.formatPathToPgn tree0 [nE5, nNf3] = "1... e5 2. Nf3" := by
  refine ⟨?_, by decide, by decide⟩
  show jsTrim (formatPathAux nodes true) = _
  rw [formatPathAux_eq_joinTokens]

namespace GameTree

/-- C5: for every identifier registered in a reachable tree,
`getMovesToNode` returns a path that starts at the root node, ends at the
named node inclusive, and in which every consecutive pair is a
parent→child pair (the successor's `parentId` is the predecessor's id). -/
theorem getMovesToNode_path {V : Validator} {t : GameTree} (hB : Built V t)
    {i : Nat} {c : GameTreeNode} (hc : t.findNode i = some c) :
    ∃ r, t.findNode t.rootId = some r ∧
      (t.getMovesToNode (some i)).head? = some r ∧
      (t.getMovesToNode (some i)).getLast? = some c ∧
      List.Chain' (fun a b => b.parentId = some a.id) (t.getMovesToNode (some i)) := by
  have hWF := built_wf hB
  have hcm := findNode_mem hc
  have hle : c.id ≤ t.counter := hWF.ids_le c hcm
  obtain ⟨r, hr, hh, hl, hch, _, _⟩ := getMovesToNodeAux_spec hWF t.counter c hcm hle
  have hunf : t.getMovesToNode (some i) = getMovesToNodeAux t t.counter c := by
    show (match t.findNode ((some i).getD t.currentNodeId) with
      | none => []
      | some c => getMovesToNodeAux t t.counter c) = _
    rw [show t.findNode ((some i).getD t.currentNodeId) = some c from hc]
  rw [hunf]
  exact ⟨r, hr, hh, hl, hch⟩

/-- Witness for C5: the path to the e4 node of the one-move tree. -/
theorem getMovesToNode_path_witness :
    ∃ r, tree1.findNode tree1.rootId = some r ∧
      (tree1.getMovesToNode (some 2)).head? = some r ∧
      (tree1.getMovesToNode (some 2)).getLast? =
        some { id := 2, fen := posE4, move := some e4Res, san := "e4",
               parentId := some 1, children := [], isMainLine := false,
               startingMoveNumber := 1 } ∧
      List.Chain' (fun a b => b.parentId = some a.id) (tree1.getMovesToNode (some 2)) :=
  getMovesToNode_path
    (Built.add (MoveInput.sanStr "e4") none false (Built.new startPos [] 0))
    (by decide)

/-- C6: on every tree reachable through the public operations —
construction with or without a main line, `addMove`, `navigateToNode` —
identifiers are pairwise distinct; every registered node is connected to
the root by a cycle-free chain of parent links; `navigateToNode` succeeds
exactly when the identifier is registered and never changes the node set,
root or counter; and `addMove` never deletes or alters a registered node
except by appending to its child list. -/
theorem tree_invariants {V : Validator} {t : GameTree} (hB : Built V t) :
    (t.nodes.map GameTreeNode.id).Nodup ∧
    (∀ n ∈ t.nodes, ∃ path : List GameTreeNode,
      path.head?.map GameTreeNode.id = some t.rootId ∧
      path.getLast? = some n ∧
      List.Chain' (fun a b => b.parentId = some a.id) path ∧
      (path.map GameTreeNode.id).Nodup ∧
      (∀ x ∈ path, x ∈ t.nodes)) ∧
    (∀ i, (navigateToNode t i).2 = (t.findNode i).isSome ∧
      (navigateToNode t i).1.nodes = t.nodes ∧
      (navigateToNode t i).1.rootId = t.rootId ∧
      (navigateToNode t i).1.counter = t.counter) ∧
    (∀ input pid b, ∀ n ∈ t.nodes,
      ∃ n' ∈ (addMove V t input pid b).1.nodes,
        n'.id = n.id ∧ n'.fen = n.fen ∧ n'.move = n.move ∧ n'.san = n.san ∧
        n'.parentId = n.parentId ∧ n'.isMainLine = n.isMainLine ∧
        n'.startingMoveNumber = n.startingMoveNumber ∧
        ∃ ext, n'.children = n.children ++ ext) := by
  have hWF := built_wf hB
  refine ⟨hWF.ids_nodup, ?_, ?_, ?_⟩
  · intro n hn
    obtain ⟨r, hr, hh, hl, hch, hbound, hpw⟩ :=
      getMovesToNodeAux_spec hWF n.id n hn (Nat.le_refl _)
    refine ⟨getMovesToNodeAux t n.id n, ?_, hl, hch, ?_,
      fun x hx => (hbound x hx).1⟩
    · rw [hh]
      simp [findNode_some_id hr]
    · have hne : (getMovesToNodeAux t n.id n).Pairwise
          (fun a b => a.id ≠ b.id) :=
        hpw.imp (fun h => Nat.ne_of_lt h)
      exact (List.pairwise_map).mpr hne
  · intro i
    exact ⟨navigateToNode_success t i, (navigateToNode_nodes t i).1,
      (navigateToNode_nodes t i).2.1, (navigateToNode_nodes t i).2.2⟩
  · intro input pid b
    exact addMove_frame V t input pid b

/-- Witness for C6: the invariants instantiated on the one-move tree. -/
theorem tree_invariants_witness :
    (tree1.nodes.map GameTreeNode.id).Nodup ∧
    (navigateToNode tree1 2).2 = true ∧
    (navigateToNode tree1 2).1.nodes = tree1.nodes := by
  have h := @tree_invariants toyV tree1
    (Built.add (MoveInput.sanStr "e4") none false (Built.new startPos [] 0))
  refine ⟨h.1, ?_, (h.2.2.1 2).2.1⟩
  rw [(h.2.2.1 2).1]
  decide

/-- C1: idempotent insertion.  On a reachable tree, when a registered
parent accepts a move (the validation service produces a result, possibly
from two different but equivalent move descriptors with the same
origin/destination/promotion), calling `addMove` twice from that parent
yields the same node both times — the second call returns the node of the
first unchanged, performs no mutation at all, and afterwards the parent
has exactly one child carrying that move signature. -/
theorem addMove_idempotent {V : Validator} {t : GameTree} (hB : Built V t)
    {pid : Nat} {parent : GameTreeNode} (hp : t.findNode pid = some parent)
    {input1 input2 : MoveInput} {res1 res2 : MoveRes}
    (hv1 : V parent.fen input1 = some res1)
    (hv2 : V parent.fen input2 = some res2)
    (h1 : res1.fromSq = res2.fromSq) (h2 : res1.toSq = res2.toSq)
    (h3 : res1.promotion = res2.promotion) (b1 b2 : Bool) :
    ∃ n : GameTreeNode,
      (addMove V t input1 (some pid) b1).2 = some n ∧
      (addMove V (addMove V t input1 (some pid) b1).1 input2 (some pid) b2).2 = some n ∧
      (addMove V (addMove V t input1 (some pid) b1).1 input2 (some pid) b2).1 =
        (addMove V t input1 (some pid) b1).1 ∧
      ∃ parent', (addMove V t input1 (some pid) b1).1.findNode pid = some parent' ∧
        parent'.children.countP
          (childLookupMatches (addMove V t input1 (some pid) b1).1 res2) = 1 := by
  have hWF := built_wf hB
  have hpm : parent ∈ t.nodes := findNode_mem hp
  have hp' : t.findNode ((some pid).getD t.currentNodeId) = some parent := hp
  have hext : childMatches res1 = childMatches res2 := childMatches_ext h1 h2 h3
  cases hcex : t.findExistingChild parent res1 with
  | some c =>
    have hc2 : t.findExistingChild parent res2 = some c := by
      rw [← findExistingChild_ext h1 h2 h3]
      exact hcex
    have e1 := @addMove_existing V t input1 (some pid) b1 parent res1 c hp' hv1 hcex
    have e2 := @addMove_existing V t input2 (some pid) b2 parent res2 c hp' hv2 hc2
    have hfst : ((t, some c) : GameTree × Option GameTreeNode).1 = t := rfl
    refine ⟨c, by rw [e1], ?_, ?_, parent, ?_, ?_⟩
    · rw [e1, hfst, e2]
    · rw [e1, hfst, e2]
    · rw [e1, hfst]
      exact hp
    · rw [e1, hfst]
      obtain ⟨cid, hcid, hcf, hcm⟩ := findExistingChild_eq_some hc2
      refine Nat.le_antisymm (hWF.children_sig parent hpm res2) ?_
      refine List.countP_pos_iff.mpr ⟨cid, hcid, ?_⟩
      unfold childLookupMatches
      rw [hcf]
      exact hcm
  | none =>
    have e1 := @addMove_new V t input1 (some pid) b1 parent res1 hp' hv1 hcex
    have hNid : (newChildNode t parent res1 b1).id = t.counter + 1 := rfl
    have hfresh : ∀ m ∈ t.nodes, m.id ≠ (newChildNode t parent res1 b1).id := by
      intro m hm
      have := hWF.ids_le m hm
      rw [hNid]
      omega
    have hp1 : (insertChild t parent (newChildNode t parent res1 b1)).findNode pid =
        some (appendChild parent.id (newChildNode t parent res1 b1).id parent) :=
      findNode_insertChild_old hp
    have hchild : (appendChild parent.id (newChildNode t parent res1 b1).id
        parent).children = parent.children ++ [(newChildNode t parent res1 b1).id] :=
      appendChild_children_of_eq rfl
    have hmatchN : childMatches res2 (newChildNode t parent res1 b1) = true := by
      show (res1.fromSq == res2.fromSq && res1.toSq == res2.toSq &&
        res1.promotion == res2.promotion) = true
      rw [h1, h2, h3]
      simp
    have hfold : ∀ cid ∈ parent.children,
        childLookupMatches (insertChild t parent (newChildNode t parent res1 b1))
          res2 cid = false := by
      intro cid hcid
      obtain ⟨m, hm, _⟩ := hWF.children_ok parent hpm cid hcid
      rw [childLookupMatches_insertChild_found res2 hm]
      have := findExistingChild_eq_none_iff.mp hcex cid hcid
      unfold childLookupMatches at this ⊢
      rw [hm] at this ⊢
      rw [← hext]
      exact this
    have hlookN : childLookupMatches (insertChild t parent (newChildNode t parent res1 b1))
        res2 (newChildNode t parent res1 b1).id = true := by
      unfold childLookupMatches
      rw [findNode_insertChild_new hfresh]
      exact hmatchN
    have hsingle : ∀ (f : Nat → Option GameTreeNode) (x : Nat),
        List.findSome? f [x] = f x := by
      intro f x
      cases h : f x <;> simp [List.findSome?, h]
    have hfec : (insertChild t parent (newChildNode t parent res1 b1)).findExistingChild
        (appendChild parent.id (newChildNode t parent res1 b1).id parent) res2 =
        some (newChildNode t parent res1 b1) := by
      unfold findExistingChild
      rw [hchild, List.findSome?_append]
      have hfirst : parent.children.findSome? (fun cid =>
          match (insertChild t parent (newChildNode t parent res1 b1)).findNode cid with
          | some child => if childMatches res2 child then some child else none
          | none => none) = none := by
        rw [List.findSome?_eq_none_iff]
        intro cid hcid
        have hl := hfold cid hcid
        unfold childLookupMatches at hl
        cases hf : (insertChild t parent (newChildNode t parent res1 b1)).findNode cid with
        | none => simp [hf]
        | some child =>
          rw [hf] at hl
          have hcc : childMatches res2 child = false := hl
          simp [hf, hcc]
      rw [hfirst, Option.none_or, hsingle]
      have hfN : (insertChild t parent (newChildNode t parent res1 b1)).findNode
          (newChildNode t parent res1 b1).id = some (newChildNode t parent res1 b1) :=
        findNode_insertChild_new hfresh
      simp [hfN, hmatchN]
    have hp1' : (insertChild t parent (newChildNode t parent res1 b1)).findNode
        ((some pid).getD (insertChild t parent
          (newChildNode t parent res1 b1)).currentNodeId) =
        some (appendChild parent.id (newChildNode t parent res1 b1).id parent) := hp1
    have hv2' : V (appendChild parent.id (newChildNode t parent res1 b1).id parent).fen
        input2 = some res2 := by
      rw [appendChild_fen]
      exact hv2
    have e2 := @addMove_existing V (insertChild t parent (newChildNode t parent res1 b1))
      input2 (some pid) b2 (appendChild parent.id (newChildNode t parent res1 b1).id parent)
      res2 (newChildNode t parent res1 b1) hp1' hv2' hfec
    have hfst : ((insertChild t parent (newChildNode t parent res1 b1),
        some (newChildNode t parent res1 b1)) :
        GameTree × Option GameTreeNode).1 = insertChild t parent (newChildNode t parent res1 b1) := rfl
    refine ⟨newChildNode t parent res1 b1, by rw [e1], ?_, ?_,
      appendChild parent.id (newChildNode t parent res1 b1).id parent, ?_, ?_⟩
    · rw [e1, hfst, e2]
    · rw [e1, hfst, e2]
    · rw [e1, hfst]
      exact hp1
    · rw [e1, hfst, hchild, List.countP_append]
      have hzero : parent.children.countP
          (childLookupMatches (insertChild t parent (newChildNode t parent res1 b1)) res2) = 0 := by
        rw [List.countP_eq_zero]
        intro a ha
        simp [hfold a ha]
      rw [hzero, List.countP_singleton, hlookN]
      rfl

/-- Witness for C1: adding 1. e4 twice from the root of a fresh tree. -/
theorem addMove_idempotent_witness :
    ∃ n : GameTreeNode,
      (addMove toyV tree0 (MoveInput.sanStr "e4") (some 1) false).2 = some n ∧
      (addMove toyV (addMove toyV tree0 (MoveInput.sanStr "e4") (some 1) false).1
        (MoveInput.sanStr "e4") (some 1) false).2 = some n ∧
      (addMove toyV (addMove toyV tree0 (MoveInput.sanStr "e4") (some 1) false).1
        (MoveInput.sanStr "e4") (some 1) false).1 =
        (addMove toyV tree0 (MoveInput.sanStr "e4") (some 1) false).1 ∧
      ∃ parent', (addMove toyV tree0 (MoveInput.sanStr "e4") (some 1) false).1.findNode 1 =
          some parent' ∧
        parent'.children.countP
          (childLookupMatches (addMove toyV tree0 (MoveInput.sanStr "e4") (some 1) false).1
            e4Res) = 1 :=
  @addMove_idempotent toyV tree0 (Built.new startPos [] 0) 1 rootNode0 (by decide)
    (MoveInput.sanStr "e4") (MoveInput.sanStr "e4") e4Res e4Res
    (by decide) (by decide) rfl rfl rfl false false

end GameTree

/-- C2: ordering of evaluation lines in a completed search result
(spec-modelled: the completion step lives in the missing
`StockfishEngine.ts`; `sortLines` formalises the spec's description,
which the in-repository engine test also asserts).  The output splits as
mate lines followed by centipawn lines, the mate block sorted ascending
by plies-to-mate, the centipawn block descending by value, nothing lost
or added; the second conjunct is the claim's example — centipawn values
{50, 100} plus one mate-in-2 yield [mate-in-2, cp 100, cp 50]. -/
theorem getTopMoves_lines_sorted (lines : List StockfishLine) :
    (∃ ms cs, sortLines lines = ms ++ cs ∧
      (∀ l ∈ ms, l.score.isMate = true) ∧
      (∀ l ∈ cs, l.score.isMate = false) ∧
      ms.Pairwise (fun a b => a.score.value ≤ b.score.value) ∧
      cs.Pairwise (fun a b => b.score.value ≤ a.score.value) ∧
      (ms ++ cs).Perm lines) ∧
    sortLines
      [{ multipv := 1, pv := "d2d4", score := Score.cp 50 },
       { multipv := 2, pv := "e2e4", score := Score.mate 2 },
       { multipv := 3, pv := "g1f3", score := Score.cp 100 }] =
      [{ multipv := 2, pv := "e2e4", score := Score.mate 2 },
       { multipv := 3, pv := "g1f3", score := Score.cp 100 },
       { multipv := 1, pv := "d2d4", score := Score.cp 50 }] := by
  constructor
  · refine ⟨insertionSort (fun a b => a.score.value ≤ b.score.value)
        (lines.filter (fun l => l.score.isMate)),
      insertionSort (fun a b => b.score.value ≤ a.score.value)
        (lines.filter (fun l => !l.score.isMate)), rfl, ?_, ?_, ?_, ?_, ?_⟩
    · intro l hl
      have := mem_insertionSort.mp hl
      exact (List.mem_filter.mp this).2
    · intro l hl
      have := mem_insertionSort.mp hl
      have hb := (List.mem_filter.mp this).2
      simpa using hb
    · have := @sorted_insertionSort (fun a b => a.score.value ≤ b.score.value)
        (fun a b => by
          rcases Int.le_total a.score.value b.score.value with h | h
          · exact Or.inl (by simpa using h)
          · exact Or.inr (by simpa using h))
        (fun a b c hab hbc => by
          have hab' : a.score.value ≤ b.score.value := by simpa using hab
          have hbc' : b.score.value ≤ c.score.value := by simpa using hbc
          simpa using le_trans hab' hbc')
        (lines.filter (fun l => l.score.isMate))
      exact this.imp (fun h => by simpa using h)
    · have := @sorted_insertionSort (fun a b => b.score.value ≤ a.score.value)
        (fun a b => by
          rcases Int.le_total b.score.value a.score.value with h | h
          · exact Or.inl (by simpa using h)
          · exact Or.inr (by simpa using h))
        (fun a b c hab hbc => by
          have hab' : b.score.value ≤ a.score.value := by simpa using hab
          have hbc' : c.score.value ≤ b.score.value := by simpa using hbc
          simpa using le_trans hbc' hab')
        (lines.filter (fun l => !l.score.isMate))
      exact this.imp (fun h => by simpa using h)
    · exact ((perm_insertionSort _ _).append (perm_insertionSort _ _)).trans
        (List.filter_append_perm _ lines)
  · decide

/-- C8: MultiPV reset (spec-modelled: `StockfishEngine.ts` is missing;
the sequence is the spec's and the one the engine unit test asserts).
Every `getTopMoves(position, count, depth)` run first sets the
parallel-line count to `count`, and the last MultiPV configuration
command it sends is the reset to 1, so later single-best-move queries
are unaffected. -/
theorem getTopMoves_multipv_reset (fen : String) (count depth : Nat) :
    (getTopMovesCommands fen count depth).head? =
      some (EngineCommand.setOptionMultiPV count) ∧
    ((getTopMovesCommands fen count depth).filter EngineCommand.isMultiPV).getLast? =
      some (EngineCommand.setOptionMultiPV 1) := by
  constructor
  · rfl
  · simp [getTopMovesCommands, EngineCommand.isMultiPV]

/-- C9: progress stream of `reviewGame` (spec-modelled: the pipeline lives
in the missing `StockfishEngine.ts`).  For N played moves, exactly N + 1
events are emitted: the i-th (0-based) of the first N carries processed
count i + 1 — strictly increasing from 1 to N — with `done = false` and
no summary, and the single final event carries `done = true` together
with the aggregated summary. -/
theorem reviewGame_progress_stream {μ σ : Type} (moves : List μ)
    (summarize : List μ → σ) :
    (reviewGameEvents moves summarize).length = moves.length + 1 ∧
    (∀ i, i < moves.length → (reviewGameEvents moves summarize)[i]? =
      some { processed := i + 1, total := moves.length, done := false,
             summary := none }) ∧
    (reviewGameEvents moves summarize)[moves.length]? =
      some { processed := moves.length, total := moves.length, done := true,
             summary := some (summarize moves) } ∧
    (reviewGameEvents moves summarize).getLast? =
      some { processed := moves.length, total := moves.length, done := true,
             summary := some (summarize moves) } := by
  refine ⟨?_, ?_, ?_, ?_⟩
  · simp [reviewGameEvents]
  · intro i hi
    unfold reviewGameEvents
    rw [List.getElem?_append_left (by simpa using hi)]
    rw [List.getElem?_map, List.getElem?_range hi]
    rfl
  · unfold reviewGameEvents
    rw [List.getElem?_append_right (by simp)]
    simp
  · unfold reviewGameEvents
    simp

end ChessGames

